import Mathlib

/-!
# AsyncLog: formatting pipeline and task queue

A shallow embedding of `AsyncLog/AsyncLog.h`.

* A `std::string` is a list of characters (`Str`); `std::string::find` and
  `std::string::replace` are the list functions `find` and `replace`.
* A `std::any` is a `Payload`: one constructor for each type `convert2Str`
  tests for, and `other` for every remaining type.
* `std::cout` is the text written so far (`Str`); every function that writes
  takes the sink and returns it extended.
* The engine's shared fields are the record `AsyncLog`; the worker thread is a
  step function over `Sys`, which adds the worker's program point, the sink and
  history variables.  In `Sys` a blocked worker may resume at any time; `NSys`
  adds the condition variable, so that it resumes only after a `notify_one`.
-/

set_option linter.dupNamespace false

namespace AsyncLog

/-- A `std::string`: a finite sequence of characters. -/
abbrev Str := List Char

/-! ## Severity levels -/

/-- The enumeration `LogLv`. -/
inductive LogLv where
  | DEBUGS
  | INFO
  | WARN
  | ERRORS
  deriving DecidableEq, Repr

/-- The text `operator<<(std::ostream&, LogLv)` inserts for a level. -/
def LogLv.tag : LogLv → Str
  | .DEBUGS => "[DEBUG]:".toList
  | .INFO => "[INFOS]:".toList
  | .WARN => "[WARNS]:".toList
  | .ERRORS => "[ERROR]:".toList

/-- The stream inserter `operator<<(std::ostream&, LogLv)`: the stream after the
level's tag has been written to it. -/
def putLogLv (os : Str) (lv : LogLv) : Str :=
  os ++ lv.tag

/-! ## Value cells -/

/-- A `std::any` as `convert2Str` sees it: the six types it tests for, in the
order of its `if` chain, and `other` for a value of any other type (`ty` names
the type; its value is never read).  A `char*` or `char const*` carries the
characters stored from the pointer on. -/
inductive Payload where
  | int (v : Int)
  | float (bits : Nat)
  | double (bits : Nat)
  | string (s : Str)
  | charPtr (mem : Str)
  | constCharPtr (mem : Str)
  | other (ty : Nat)
  deriving DecidableEq, Repr

/-- The text the standard library's inserters produce for floating-point values,
`operator<<(float)` and `operator<<(double)`.  They are library code, not code
of this repository, so the development is parametric in them. -/
structure FloatFmt where
  float : Nat → Str
  double : Nat → Str

/-- The decimal text `operator<<(int)` produces. -/
def intText (v : Int) : Str :=
  match v with
  | .ofNat n => Nat.toDigits 10 n
  | .negSucc n => '-' :: Nat.toDigits 10 (n + 1)

/-- The text `operator<<(const char*)` produces: the characters up to the first
NUL. -/
def cText (mem : Str) : Str :=
  mem.takeWhile (fun c => c != '\x00')

/-- The method `convert2Str(data, str)`: the returned flag and the caller's
string afterwards.  The string is assigned only on the success path. -/
def convert2Str (ff : FloatFmt) (data : Payload) (str : Str) : Bool × Str :=
  match data with
  | .int v => (true, intText v)
  | .float b => (true, ff.float b)
  | .double b => (true, ff.double b)
  | .string s => (true, s)
  | .charPtr m => (true, cText m)
  | .constCharPtr m => (true, cText m)
  | .other _ => (false, str)

/-! ## The string operations used by `formatString` -/

/-- Index of the first occurrence of `pat` in `s`, if any. -/
def findFrom (pat : Str) : Str → Option Nat
  | [] => if pat.isPrefixOf [] then some 0 else none
  | c :: t =>
    if pat.isPrefixOf (c :: t) then some 0
    else (findFrom pat t).map (fun i => i + 1)

/-- The call `s.find(pat, pos)`: the least index `i ≥ pos` at which `pat` occurs
in `s`; `none` stands for `std::string::npos`. -/
def find (s pat : Str) (pos : Nat) : Option Nat :=
  if s.length < pos then none
  else (findFrom pat (s.drop pos)).map (fun i => pos + i)

/-- The call `s.replace(pos, len, r)` for `pos ≤ s.size()`: the `len` characters
from `pos` on (fewer if the string ends first) are replaced by `r`.
`formatString` calls it only with a position returned by `find`. -/
def replace (s : Str) (pos len : Nat) (r : Str) : Str :=
  s.take pos ++ r ++ s.drop (pos + len)

/-! ## `formatString` and `processTask` -/

/-- The lambda `replacePlaceholder` of `formatString`, acting on the two locals
it captures by reference, `result` and `pos`. -/
def replacePlaceholder (ff : FloatFmt) (placeholder : Str) (replacement : Payload)
    (st : Str × Nat) : Str × Nat :=
  let conv := convert2Str ff replacement []
  if !conv.1 then st
  else
    match find st.1 placeholder st.2 with
    | some placeholderPos =>
      (replace st.1 placeholderPos placeholder.length conv.2,
        placeholderPos + conv.2.length)
    | none => (st.1 ++ ' ' :: conv.2, st.2)

/-- The variadic `formatString(format, args...)`: `result` starts as `format`,
`pos` as 0, and the fold expression applies `replacePlaceholder("{}", arg)` to
the arguments from left to right. -/
def formatString (ff : FloatFmt) (format : Str) (args : List Payload) : Str :=
  (args.foldl (fun st a => replacePlaceholder ff ['{', '}'] a st) (format, 0)).1

/-- A `LogTask`: a level and the queue of its cells, front first. -/
structure LogTask where
  _level : LogLv
  _logdatas : List Payload
  deriving DecidableEq, Repr

/-- The `while` loop of `processTask`: while cells remain, the front cell is
passed alone to `formatString` and popped. -/
def processLoop (ff : FloatFmt) (formatstr : Str) : List Payload → Str
  | [] => formatstr
  | data :: rest => processLoop ff (formatString ff formatstr [data]) rest

/-- The method `processTask(task)`: the sink after the task has been processed.
The tag is written first; both early returns leave the sink as it is then. -/
def processTask (ff : FloatFmt) (sink : Str) (task : LogTask) : Str :=
  let sink := putLogLv sink task._level
  match task._logdatas with
  | [] => sink
  | head :: rest =>
    let conv := convert2Str ff head []
    if !conv.1 then sink
    else sink ++ processLoop ff conv.2 rest ++ ['\n']

/-- A formatter for the floating-point inserters, used where a concrete one is
needed to evaluate an example; it prints the bit pattern in decimal. -/
def bitsFmt : FloatFmt :=
  ⟨fun b => Nat.toDigits 10 b, fun b => Nat.toDigits 10 b⟩

/-! ## The engine: queue, stop flag and worker thread -/

/-- The way `AsyncWrite` fills a task's cell queue: with C++17 the fold expression
`(task->_logdatas.push(args), ...)`, otherwise the recursive helper
`TaskEnque(task, args...)`, which is declared for one argument or more. Both push
the arguments from left to right. -/
def TaskEnque (task : LogTask) : List Payload → LogTask
  | [] => task
  | arg :: args => TaskEnque { task with _logdatas := task._logdatas ++ [arg] } args

/-- The task `AsyncWrite(level, args...)` builds before it takes the lock: a
value-initialised `LogTask` (level 0, no cells), the arguments enqueued, then the
level set. -/
def newTask (level : LogLv) (args : List Payload) : LogTask :=
  let task : LogTask := ⟨.DEBUGS, []⟩
  let task := TaskEnque task args
  { task with _level := level }

/-- The fields of the class `AsyncLog` shared between the callers and the worker
thread. -/
structure AsyncLog where
  _queue : List LogTask
  _b_stop : Bool
  deriving DecidableEq, Repr

/-- The method `AsyncWrite(level, args...)`: the new task is pushed at the tail of
`_queue` under the lock. -/
def AsyncLog.AsyncWrite (self : AsyncLog) (level : LogLv) (args : List Payload) :
    AsyncLog :=
  { self with _queue := self._queue ++ [newTask level args] }

/-- The method `Stop()`: sets `_b_stop`. -/
def AsyncLog.Stop (self : AsyncLog) : AsyncLog :=
  { self with _b_stop := true }

/-- Where the worker thread is: at the top of its loop, blocked in
`_empty_cond.wait(lock)`, or returned from its lambda. -/
inductive WorkerPc where
  | running
  | waiting
  | exited
  deriving DecidableEq, Repr

/-- The engine with its worker: the shared fields, the worker's program point,
the text written to `std::cout`, and the history of the tasks the worker has
taken off the queue, oldest first. -/
structure Sys where
  log : AsyncLog
  pc : WorkerPc
  sink : Str
  dequeued : List LogTask
  deriving DecidableEq, Repr

/-- The worker's loop body from the stop check on (after the `wait` line), run
under the lock: return if `_b_stop` is set and the queue is empty; otherwise take
the front task, pop it, unlock and process it. `front()` on an empty queue is
undefined behaviour in C++: there the step has no result. -/
def workerBody (ff : FloatFmt) (s : Sys) : Option Sys :=
  if s.log._b_stop && s.log._queue.isEmpty then
    some { s with pc := .exited }
  else
    match s.log._queue with
    | [] => none
    | logtask :: q =>
      some { log := { s.log with _queue := q }
             pc := .running
             sink := processTask ff s.sink logtask
             dequeued := s.dequeued ++ [logtask] }

/-- One step of the worker thread. At the top of the loop it takes the lock and,
if the queue is empty, blocks in `wait`; otherwise it runs the rest of the body.
A blocked worker resumes, when `wait` returns, with the rest of the body on the
state it finds then. A worker that has returned takes no step. -/
def workerStep (ff : FloatFmt) (s : Sys) : Option Sys :=
  match s.pc with
  | .running =>
    if s.log._queue.isEmpty then some { s with pc := .waiting }
    else workerBody ff s
  | .waiting => workerBody ff s
  | .exited => none

/-- The atomic steps of the system: a caller completes the enqueue of
`AsyncWrite`, a caller runs `Stop`, or the worker takes a step. -/
inductive Event where
  | push (level : LogLv) (args : List Payload)
  | stop
  | worker
  deriving DecidableEq, Repr

/-- The effect of one event. -/
def step (ff : FloatFmt) (s : Sys) : Event → Option Sys
  | .push level args => some { s with log := s.log.AsyncWrite level args }
  | .stop => some { s with log := s.log.Stop }
  | .worker => workerStep ff s

/-- The state after a sequence of events, if every step has a result. -/
def run (ff : FloatFmt) (s : Sys) : List Event → Option Sys
  | [] => some s
  | e :: evs => (step ff s e).bind (fun s1 => run ff s1 evs)

/-- The state the constructor `AsyncLog()` leaves: empty queue, stop flag clear,
worker started, nothing written. -/
def init : Sys :=
  { log := ⟨[], false⟩, pc := .running, sink := [], dequeued := [] }

/-- The tasks whose pushes completed in a sequence of events, in order. -/
def pushesOf : List Event → List LogTask
  | [] => []
  | .push level args :: evs => newTask level args :: pushesOf evs
  | _ :: evs => pushesOf evs

/-- The tasks whose pushes completed before the first `Stop`. -/
def pushesBeforeStop : List Event → List LogTask
  | [] => []
  | .push level args :: evs => newTask level args :: pushesBeforeStop evs
  | .stop :: _ => []
  | .worker :: evs => pushesBeforeStop evs

/-- The flag `convert2Str` returns for a cell. -/
def renders (ff : FloatFmt) (c : Payload) : Bool :=
  (convert2Str ff c []).1

/-- The text `convert2Str` stores for a cell when called, as `formatString`
and `processTask` call it, with an empty string. -/
def rendered (ff : FloatFmt) (c : Payload) : Str :=
  (convert2Str ff c []).2

/-- The text contains neither brace character. -/
def BraceFree (s : Str) : Prop :=
  '{' ∉ s ∧ '}' ∉ s

instance (s : Str) : Decidable (BraceFree s) := by
  unfold BraceFree; infer_instance

/-- The sink holds the output of the dequeued tasks, processed in order. -/
def SinkOk (ff : FloatFmt) (s : Sys) : Prop :=
  s.sink = s.dequeued.foldl (processTask ff) []

/-! ## The level-tagged entry points -/

/-- The function `ELog(args...)`, acting on the singleton `Instance()`. -/
def ELog (instance_ : AsyncLog) (args : List Payload) : AsyncLog :=
  instance_.AsyncWrite .ERRORS args

/-- The function `DLog(args...)`, acting on the singleton `Instance()`. -/
def DLog (instance_ : AsyncLog) (args : List Payload) : AsyncLog :=
  instance_.AsyncWrite .DEBUGS args

/-- The function `ILog(args...)`, acting on the singleton `Instance()`. -/
def ILog (instance_ : AsyncLog) (args : List Payload) : AsyncLog :=
  instance_.AsyncWrite .INFO args

/-- The function `WLog(args...)`, acting on the singleton `Instance()`. -/
def WLog (instance_ : AsyncLog) (args : List Payload) : AsyncLog :=
  instance_.AsyncWrite .WARN args

/-! ## The engine with notifications

`AsyncWrite` calls `notify_one` after it has released the lock, and `Stop` after
it has set the flag, so the write and the notification are separate steps.  A
notification wakes the worker only if it is blocked in `wait` at that moment;
`wait` returns only after a notification. -/

/-- The engine, the worker and the condition variable: `notified` says that the
blocked worker has been notified and `wait` is about to return; `pending` counts
the calls of `AsyncWrite` and `Stop` that have written and not yet notified. -/
structure NSys where
  sys : Sys
  notified : Bool
  pending : Nat
  deriving DecidableEq, Repr

/-- The atomic steps with notifications: the locked enqueue of `AsyncWrite`, the
assignment of `Stop`, a pending `notify_one`, and a worker step. -/
inductive NEvent where
  | enqueue (level : LogLv) (args : List Payload)
  | setStop
  | notify
  | worker
  deriving DecidableEq, Repr

/-- The effect of one event. `notify` needs a call that has yet to notify. The
worker steps as in `workerStep`, except that a blocked worker steps only once it
has been notified. -/
def nstep (ff : FloatFmt) (s : NSys) : NEvent → Option NSys
  | .enqueue level args =>
    some { s with sys := { s.sys with log := s.sys.log.AsyncWrite level args }
                  pending := s.pending + 1 }
  | .setStop =>
    some { s with sys := { s.sys with log := s.sys.log.Stop }
                  pending := s.pending + 1 }
  | .notify =>
    if s.pending = 0 then none
    else some { s with pending := s.pending - 1
                       notified := s.notified || decide (s.sys.pc = .waiting) }
  | .worker =>
    if s.sys.pc = .waiting ∧ s.notified = false then none
    else (workerStep ff s.sys).map (fun y => { s with sys := y, notified := false })

/-- The state after a sequence of events, if every step has a result. -/
def nrun (ff : FloatFmt) (s : NSys) : List NEvent → Option NSys
  | [] => some s
  | e :: evs => (nstep ff s e).bind (fun s1 => nrun ff s1 evs)

/-- The constructor's state, no notification under way. -/
def ninit : NSys :=
  { sys := init, notified := false, pending := 0 }

/-- The blocked worker has been notified while the queue is empty and the stop
flag is clear: when `wait` returns, the stop check fails and the worker calls
`front()` and `pop()` on the empty queue. -/
def NSys.frontOnEmpty (s : NSys) : Bool :=
  decide (s.sys.pc = .waiting) && s.notified && !s.sys.log._b_stop
    && s.sys.log._queue.isEmpty

/-! ## A single forward pass -/

/-- The substitution pass as the specification words it: for each cell in order,
a cell that does not render is skipped; otherwise the next `{}` at or after the
position just past the last substitution is replaced by the cell's text and the
position moves past the inserted text; if no `{}` remains, the text is appended
after one space. -/
def forwardPass (ff : FloatFmt) : Str → Nat → List Payload → Str
  | template, _, [] => template
  | template, pos, c :: cs =>
    if renders ff c then
      match find template ['{', '}'] pos with
      | some p =>
        forwardPass ff (replace template p 2 (rendered ff c))
          (p + (rendered ff c).length) cs
      | none => forwardPass ff (template ++ ' ' :: rendered ff c) pos cs
    else forwardPass ff template pos cs

/-- No `{}` starts inside the prefix `A`, whatever text follows it. -/
def Clean (A : Str) : Prop :=
  ∀ X : Str, findFrom ['{', '}'] (A ++ X)
    = (findFrom ['{', '}'] X).map (fun i => A.length + i)

/-- The number a sequence of decimal digits denotes, most significant digit
first. -/
def decimalValue (ds : Str) : Nat :=
  ds.foldl (fun acc c => 10 * acc + (c.toNat - '0'.toNat)) 0

/-! ## Lemmas on `find` and `replace` -/

theorem findFrom_skip (A B : Str) (hA : '{' ∉ A) :
    findFrom ['{', '}'] (A ++ '{' :: '}' :: B) = some A.length := by
  induction A with
  | nil => simp [findFrom, List.isPrefixOf]
  | cons a A ih =>
    have ha : a ≠ '{' := fun h => hA (by simp [h])
    have hA2 : '{' ∉ A := fun h => hA (by simp [h])
    have hne : ('{' == a) = false := by
      simpa using fun h : '{' = a => ha h.symm
    simp [findFrom, List.isPrefixOf, hne, ih hA2]

theorem findFrom_none (s : Str) (hs : '{' ∉ s) :
    findFrom ['{', '}'] s = none := by
  induction s with
  | nil => simp [findFrom, List.isPrefixOf]
  | cons a A ih =>
    have ha : a ≠ '{' := fun h => hs (by simp [h])
    have hA2 : '{' ∉ A := fun h => hs (by simp [h])
    have hne : ('{' == a) = false := by
      simpa using fun h : '{' = a => ha h.symm
    simp [findFrom, List.isPrefixOf, hne, ih hA2]

theorem find_zero (s pat : Str) : find s pat 0 = findFrom pat s := by
  simp [find]

theorem replace_slot (A B r : Str) :
    replace (A ++ '{' :: '}' :: B) A.length 2 r = A ++ r ++ B := by
  simp [replace, List.drop_append]

/-- One call of `formatString` with a cell that renders, on a string whose
first `{` opens a placeholder. -/
theorem formatString_fill (ff : FloatFmt) (A B : Str) (c : Payload)
    (hA : '{' ∉ A) (hc : renders ff c = true) :
    formatString ff (A ++ '{' :: '}' :: B) [c] = A ++ rendered ff c ++ B := by
  have hc2 : (convert2Str ff c []).1 = true := hc
  simp [formatString, replacePlaceholder, hc2, find_zero, findFrom_skip A B hA,
    replace_slot, rendered]

/-- One call of `formatString` with a cell that renders, on a string without
`{`. -/
theorem formatString_append (ff : FloatFmt) (s : Str) (c : Payload)
    (hs : '{' ∉ s) (hc : renders ff c = true) :
    formatString ff s [c] = s ++ ' ' :: rendered ff c := by
  have hc2 : (convert2Str ff c []).1 = true := hc
  simp [formatString, replacePlaceholder, hc2, find_zero, findFrom_none s hs, rendered]

/-- One call of `formatString` with a cell that does not render. -/
theorem formatString_skip (ff : FloatFmt) (s : Str) (c : Payload)
    (hc : renders ff c = false) :
    formatString ff s [c] = s := by
  have hc2 : (convert2Str ff c []).1 = false := hc
  simp [formatString, replacePlaceholder, hc2]

/-- The loop of `processTask` on a template whose segments and arguments are
brace-free: placeholders are filled from the left, the ones left over stay, and
arguments left over are appended, each after one space. -/
theorem processLoop_segments (ff : FloatFmt) (cells : List Payload) :
    ∀ (A : Str) (ps : List Str), BraceFree A → (∀ p ∈ ps, BraceFree p) →
      (∀ c ∈ cells, renders ff c = true ∧ BraceFree (rendered ff c)) →
      processLoop ff (A ++ (ps.map (fun p => '{' :: '}' :: p)).flatten) cells
        = A ++ (List.zipWith (fun r p => r ++ p) (cells.map (rendered ff)) ps).flatten
            ++ ((ps.drop cells.length).map (fun p => '{' :: '}' :: p)).flatten
            ++ (((cells.map (rendered ff)).drop ps.length).map
                  (fun r => ' ' :: r)).flatten := by
  induction cells with
  | nil => intro A ps _ _ _; simp [processLoop]
  | cons c cells ih =>
    intro A ps hA hps hcs
    have hc := hcs c (by simp)
    have hcs2 : ∀ d ∈ cells, renders ff d = true ∧ BraceFree (rendered ff d) :=
      fun d hd => hcs d (by simp [hd])
    cases ps with
    | nil =>
      have hA2 : BraceFree (A ++ ' ' :: rendered ff c) := by
        refine ⟨?_, ?_⟩
        · simp only [List.mem_append, List.mem_cons, not_or]
          exact ⟨hA.1, by decide, hc.2.1⟩
        · simp only [List.mem_append, List.mem_cons, not_or]
          exact ⟨hA.2, by decide, hc.2.2⟩
      have h := ih (A ++ ' ' :: rendered ff c) [] hA2 (by simp) hcs2
      simp only [List.map_nil, List.flatten_nil, List.append_nil] at h
      simp only [processLoop, List.map_nil, List.flatten_nil, List.append_nil]
      rw [formatString_append ff A c hA.1 hc.1, h]
      simp
    | cons p ps =>
      have hp := hps p (by simp)
      have hps2 : ∀ q ∈ ps, BraceFree q := fun q hq => hps q (by simp [hq])
      have hA2 : BraceFree (A ++ rendered ff c ++ p) := by
        refine ⟨?_, ?_⟩
        · simp only [List.mem_append, not_or]
          exact ⟨⟨hA.1, hc.2.1⟩, hp.1⟩
        · simp only [List.mem_append, not_or]
          exact ⟨⟨hA.2, hc.2.2⟩, hp.2⟩
      have h := ih (A ++ rendered ff c ++ p) ps hA2 hps2 hcs2
      simp only [processLoop, List.map_cons, List.flatten_cons, List.cons_append,
        List.nil_append]
      rw [formatString_fill ff A _ c hA.1 hc.1]
      rw [show A ++ rendered ff c ++ (p ++ (ps.map (fun p => '{' :: '}' :: p)).flatten)
            = (A ++ rendered ff c ++ p) ++ (ps.map (fun p => '{' :: '}' :: p)).flatten by
          simp]
      rw [h]
      simp

/-! ## Placeholder substitution -/

/-- Claim C1 (positional substitution). Let the template cell render to
`p0 ++ "{}" ++ p1 ++ ... ++ "{}" ++ pk` with brace-free segments, and let the
`n ≤ k` further cells all render, to brace-free texts `r1..rn`. Then
`processTask` writes the tag, then
`p0 ++ r1 ++ p1 ++ ... ++ rn ++ pn ++ "{}" ++ p(n+1) ++ ... ++ "{}" ++ pk`,
then the line terminator: the i-th cell fills the i-th placeholder and unused
placeholders stay verbatim. -/
theorem processTask_positional_substitution (ff : FloatFmt) (sink : Str) (lv : LogLv)
    (head : Payload) (p0 : Str) (ps : List Str) (cells : List Payload)
    (hhead : convert2Str ff head []
      = (true, p0 ++ (ps.map (fun p => '{' :: '}' :: p)).flatten))
    (hsegs : ∀ p ∈ p0 :: ps, BraceFree p)
    (hn : cells.length ≤ ps.length)
    (hcells : ∀ c ∈ cells, renders ff c = true ∧ BraceFree (rendered ff c)) :
    processTask ff sink ⟨lv, head :: cells⟩
      = sink ++ lv.tag
          ++ (p0 ++ (List.zipWith (fun r p => r ++ p) (cells.map (rendered ff)) ps).flatten
                ++ ((ps.drop cells.length).map (fun p => '{' :: '}' :: p)).flatten)
          ++ ['\n'] := by
  have h := processLoop_segments ff cells p0 ps (hsegs p0 (by simp))
    (fun p hp => hsegs p (by simp [hp])) hcells
  have hd : (cells.map (rendered ff)).drop ps.length = [] := by
    apply List.drop_eq_nil_of_le
    simpa using hn
  rw [hd] at h
  simp only [List.map_nil, List.flatten_nil, List.append_nil] at h
  simp only [processTask, putLogLv, hhead, Bool.not_true, Bool.false_eq_true, if_false, h]

/-- The example of claim C1: template `"{} plus {} is {}"` with the `int` cells
1, 2, 3. -/
theorem processTask_positional_substitution_witness :
    processTask bitsFmt [] ⟨.INFO,
        [.constCharPtr "{} plus {} is {}".toList, .int 1, .int 2, .int 3]⟩
      = "[INFOS]:1 plus 2 is 3\n".toList :=
  (processTask_positional_substitution bitsFmt [] .INFO
      (.constCharPtr "{} plus {} is {}".toList) []
      [" plus ".toList, " is ".toList, []] [.int 1, .int 2, .int 3]
      (by decide) (by decide) (by decide) (by decide)).trans (by decide)

/-- Claim C3 (placeholder overflow). Let the template cell render to
`p0 ++ "{}" ++ p1 ++ ... ++ "{}" ++ pk` with brace-free segments, and let the
`n > k` further cells all render, to brace-free texts `r1..rn`. Then
`processTask` writes the tag, then `p0 ++ r1 ++ p1 ++ ... ++ rk ++ pk`
followed, for each of `r(k+1)..rn` in order, by one space and that text, then
the line terminator. -/
theorem processTask_placeholder_overflow (ff : FloatFmt) (sink : Str) (lv : LogLv)
    (head : Payload) (p0 : Str) (ps : List Str) (cells : List Payload)
    (hhead : convert2Str ff head []
      = (true, p0 ++ (ps.map (fun p => '{' :: '}' :: p)).flatten))
    (hsegs : ∀ p ∈ p0 :: ps, BraceFree p)
    (hn : ps.length < cells.length)
    (hcells : ∀ c ∈ cells, renders ff c = true ∧ BraceFree (rendered ff c)) :
    processTask ff sink ⟨lv, head :: cells⟩
      = sink ++ lv.tag
          ++ (p0 ++ (List.zipWith (fun r p => r ++ p) (cells.map (rendered ff)) ps).flatten
                ++ (((cells.map (rendered ff)).drop ps.length).map
                      (fun r => ' ' :: r)).flatten)
          ++ ['\n'] := by
  have h := processLoop_segments ff cells p0 ps (hsegs p0 (by simp))
    (fun p hp => hsegs p (by simp [hp])) hcells
  have hd : ps.drop cells.length = [] := List.drop_eq_nil_of_le (Nat.le_of_lt hn)
  rw [hd] at h
  simp only [List.map_nil, List.flatten_nil, List.append_nil] at h
  simp only [processTask, putLogLv, hhead, Bool.not_true, Bool.false_eq_true, if_false, h]

/-- The example of claim C3: template `"{}"` with the text cells `"x"`, `"y"`. -/
theorem processTask_placeholder_overflow_witness :
    processTask bitsFmt [] ⟨.WARN,
        [.constCharPtr "{}".toList, .string "x".toList, .constCharPtr "y".toList]⟩
      = "[WARNS]:x y\n".toList :=
  (processTask_placeholder_overflow bitsFmt [] .WARN (.constCharPtr "{}".toList) [] [[]]
      [.string "x".toList, .constCharPtr "y".toList]
      (by decide) (by decide) (by decide) (by decide)).trans (by decide)

/-- Claim C2 (forward-only scanning), evaluated on its example. With template
`"{} {}"` and the text cells `"{}"`, `"x"`, `processTask` writes `x {}`: its
loop passes one cell to each call of `formatString`, every call starts with
`pos = 0`, and the second call finds the `{}` the first one inserted. A single
call of `formatString` with both cells advances `pos` past the inserted text and
yields `{} x`. -/
theorem processTask_rescans_inserted_text (ff : FloatFmt) (sink : Str) (lv : LogLv) :
    processTask ff sink ⟨lv,
        [.constCharPtr "{} {}".toList, .constCharPtr "{}".toList, .constCharPtr "x".toList]⟩
      = sink ++ lv.tag ++ "x {}".toList ++ ['\n']
    ∧ formatString ff "{} {}".toList [.constCharPtr "{}".toList, .constCharPtr "x".toList]
      = "{} x".toList := by
  constructor <;> rfl

/-! ## Early returns of `processTask` -/

/-- Claim C4 (unsupported template), evaluated on the code. For a task whose
first cell is of an unsupported type, `processTask` has already written the
level tag when it returns: the sink grows by the eight characters of the tag,
without a line terminator, so the tag is glued to the front of the next task's
line. -/
theorem processTask_unsupported_head_writes_tag (ff : FloatFmt) (sink : Str) (lv : LogLv)
    (ty : Nat) (rest : List Payload) :
    processTask ff sink ⟨lv, .other ty :: rest⟩ = sink ++ lv.tag
    ∧ processTask ff sink ⟨lv, .other ty :: rest⟩ ≠ sink
    ∧ processTask ff (processTask ff [] ⟨.DEBUGS, [.other 0]⟩)
          ⟨.INFO, [.constCharPtr "hello".toList]⟩
        = "[DEBUG]:[INFOS]:hello\n".toList := by
  refine ⟨rfl, ?_, rfl⟩
  intro h
  have hl := congrArg List.length h
  cases lv <;> simp [processTask, putLogLv, convert2Str, LogLv.tag] at hl

/-- Claim C5 (empty task), evaluated on the code. For a task without cells
`processTask` writes the level tag and returns before the line terminator is
written: the sink grows by the tag alone, which is not a terminated line. -/
theorem processTask_empty_task_no_newline (ff : FloatFmt) (sink : Str) (lv : LogLv) :
    processTask ff sink ⟨lv, []⟩ = sink ++ lv.tag
    ∧ processTask ff sink ⟨lv, []⟩ ≠ sink ++ lv.tag ++ ['\n']
    ∧ processTask ff (processTask ff [] ⟨.DEBUGS, []⟩)
          ⟨.INFO, [.constCharPtr "hello".toList]⟩
        = "[DEBUG]:[INFOS]:hello\n".toList := by
  refine ⟨rfl, ?_, rfl⟩
  intro h
  have hl := congrArg List.length h
  simp [processTask, putLogLv] at hl

/-! ## The line written for a task -/

theorem processLoop_eq_foldl (ff : FloatFmt) (cells : List Payload) :
    ∀ f : Str, processLoop ff f cells
      = cells.foldl (fun f d => formatString ff f [d]) f := by
  induction cells with
  | nil => intro f; rfl
  | cons c cells ih => intro f; simp [processLoop, ih]

/-- Claim C6 (output line format). For a task with at least one cell whose
first cell renders, `processTask` writes exactly the level tag, then the
substituted template (the first cell's text after `formatString` has been
applied for each further cell in order), then the line terminator, with nothing
in between. The tags are `[DEBUG]:`, `[INFOS]:`, `[WARNS]:`, `[ERROR]:`; they
are pairwise distinct and eight characters long. -/
theorem processTask_line_format (ff : FloatFmt) (sink : Str) (lv : LogLv)
    (head : Payload) (rest : List Payload) (hhead : renders ff head = true) :
    processTask ff sink ⟨lv, head :: rest⟩
        = sink ++ lv.tag
            ++ rest.foldl (fun f d => formatString ff f [d]) (rendered ff head)
            ++ ['\n']
    ∧ LogLv.tag .DEBUGS = "[DEBUG]:".toList
    ∧ LogLv.tag .INFO = "[INFOS]:".toList
    ∧ LogLv.tag .WARN = "[WARNS]:".toList
    ∧ LogLv.tag .ERRORS = "[ERROR]:".toList
    ∧ Function.Injective LogLv.tag
    ∧ ∀ l : LogLv, l.tag.length = 8 := by
  have hc : (convert2Str ff head []).1 = true := hhead
  refine ⟨?_, rfl, rfl, rfl, rfl, ?_, ?_⟩
  · simp [processTask, putLogLv, hc, processLoop_eq_foldl, rendered]
  · intro a b h
    cases a <;> cases b <;> first | rfl | exact absurd h (by decide)
  · intro l; cases l <;> rfl

/-- An instance of claim C6: a `double` template cell followed by an `int`. -/
theorem processTask_line_format_witness :
    renders bitsFmt (.double 7) = true
    ∧ processTask bitsFmt "old\n".toList ⟨.ERRORS, [.double 7, .int (-12)]⟩
        = "old\n[ERROR]:7 -12\n".toList :=
  ⟨by decide,
    ((processTask_line_format bitsFmt "old\n".toList .ERRORS (.double 7) [.int (-12)]
      (by decide)).1).trans (by decide)⟩

/-- Claim C7 (single-cell task). For every level and every text `t`, also one
containing `{}`, a task whose only cell is the text `t` makes `processTask`
write the level tag, then `t` verbatim, then the line terminator. The text cell
is a `std::string`, or a `char*` or `char const*` pointing to the C string `t`
(which, being a C string, has no NUL inside). -/
theorem processTask_single_text_cell (ff : FloatFmt) (sink : Str) (lv : LogLv)
    (t : Str) (c : Payload)
    (hc : c = .string t
      ∨ ((c = .charPtr t ∨ c = .constCharPtr t) ∧ '\x00' ∉ t)) :
    processTask ff sink ⟨lv, [c]⟩ = sink ++ lv.tag ++ t ++ ['\n'] := by
  have hz : ∀ t : Str, '\x00' ∉ t → cText t = t := by
    intro t ht
    unfold cText
    rw [List.takeWhile_eq_self_iff]
    intro x hx
    simpa using fun h : x = '\x00' => ht (h ▸ hx)
  rcases hc with rfl | ⟨rfl | rfl, ht⟩
  · simp [processTask, putLogLv, convert2Str, processLoop]
  · simp [processTask, putLogLv, convert2Str, processLoop, hz t ht]
  · simp [processTask, putLogLv, convert2Str, processLoop, hz t ht]

/-- The example of claim C7, and a single cell that contains placeholders. -/
theorem processTask_single_text_cell_witness :
    processTask bitsFmt [] ⟨.DEBUGS, [.constCharPtr "hello".toList]⟩
        = "[DEBUG]:hello\n".toList
    ∧ processTask bitsFmt [] ⟨.DEBUGS, [.string "{} and {}".toList]⟩
        = "[DEBUG]:{} and {}\n".toList :=
  ⟨(processTask_single_text_cell bitsFmt [] .DEBUGS "hello".toList
      (.constCharPtr "hello".toList) (Or.inr ⟨Or.inr rfl, by decide⟩)).trans (by decide),
    by decide⟩

/-! ## Cells that do not render -/

theorem processLoop_filter (ff : FloatFmt) (cells : List Payload) :
    ∀ f : Str, processLoop ff f cells
      = processLoop ff f (cells.filter (fun c => renders ff c)) := by
  induction cells with
  | nil => intro f; rfl
  | cons c cells ih =>
    intro f
    cases hc : renders ff c with
    | true => simp [List.filter, hc, processLoop, ih]
    | false => simp [List.filter, hc, processLoop, formatString_skip ff f c hc, ih]

/-- Claim C8 (unrenderable arguments are skipped). For a task whose first cell
renders, `processTask` writes the same as for the task with every later cell
that does not render removed; a call of `formatString` with such a cell returns
the template unchanged, so it consumes no placeholder and the cells after it
are still substituted. -/
theorem processTask_skips_unrenderable (ff : FloatFmt) (sink : Str) (lv : LogLv)
    (head : Payload) (rest : List Payload) (hhead : renders ff head = true) :
    processTask ff sink ⟨lv, head :: rest⟩
        = processTask ff sink ⟨lv, head :: rest.filter (fun c => renders ff c)⟩
    ∧ ∀ (f : Str) (c : Payload), renders ff c = false → formatString ff f [c] = f := by
  have hc : (convert2Str ff head []).1 = true := hhead
  refine ⟨?_, fun f c h => formatString_skip ff f c h⟩
  simp only [processTask, hc, Bool.not_true, Bool.false_eq_true, if_false]
  rw [processLoop_filter]

/-- An instance of claim C8: an unsupported cell between two supported ones. -/
theorem processTask_skips_unrenderable_witness :
    processTask bitsFmt [] ⟨.INFO,
        [.constCharPtr "{}-{}".toList, .int 1, .other 3, .int 2]⟩
      = "[INFOS]:1-2\n".toList :=
  ((processTask_skips_unrenderable bitsFmt [] .INFO (.constCharPtr "{}-{}".toList)
      [.int 1, .other 3, .int 2] (by decide)).1).trans (by decide)

/-! ## The queue and the worker -/

theorem workerBody_cases (ff : FloatFmt) (s s1 : Sys) (h : workerBody ff s = some s1) :
    (s.log._b_stop = true ∧ s.log._queue = [] ∧ s1 = { s with pc := .exited })
    ∨ ∃ t q, s.log._queue = t :: q
        ∧ s1 = { log := { s.log with _queue := q }, pc := .running,
                 sink := processTask ff s.sink t, dequeued := s.dequeued ++ [t] } := by
  unfold workerBody at h
  cases hq : s.log._queue with
  | nil =>
    cases hb : s.log._b_stop with
    | false => simp [hq, hb] at h
    | true =>
      simp [hq, hb] at h
      exact Or.inl ⟨rfl, rfl, h.symm⟩
  | cons t q =>
    simp [hq] at h
    exact Or.inr ⟨t, q, rfl, h.symm⟩

theorem workerStep_cases (ff : FloatFmt) (s s1 : Sys) (h : workerStep ff s = some s1) :
    (s.pc = .running ∧ s.log._queue = [] ∧ s1 = { s with pc := .waiting })
    ∨ (s.pc ≠ .exited ∧ s.log._b_stop = true ∧ s.log._queue = []
        ∧ s1 = { s with pc := .exited })
    ∨ (s.pc ≠ .exited ∧ ∃ t q, s.log._queue = t :: q
        ∧ s1 = { log := { s.log with _queue := q }, pc := .running,
                 sink := processTask ff s.sink t, dequeued := s.dequeued ++ [t] }) := by
  unfold workerStep at h
  cases hpc : s.pc with
  | running =>
    simp only [hpc] at h
    cases hq : s.log._queue with
    | nil =>
      simp [hq] at h
      exact Or.inl ⟨rfl, rfl, h.symm⟩
    | cons t q =>
      simp [hq] at h
      rcases workerBody_cases ff s s1 h with ⟨_, h2, _⟩ | h2
      · simp [hq] at h2
      · exact Or.inr (Or.inr ⟨by simp, by simpa [hq] using h2⟩)
  | waiting =>
    simp only [hpc] at h
    rcases workerBody_cases ff s s1 h with ⟨h1, h2, h3⟩ | h2
    · exact Or.inr (Or.inl ⟨by simp, h1, h2, h3⟩)
    · exact Or.inr (Or.inr ⟨by simp, h2⟩)
  | exited => simp [hpc] at h

/-- Every step keeps `dequeued ++ _queue` and extends it by the task pushed, if
the step is a push. -/
theorem step_conserves (ff : FloatFmt) (s s1 : Sys) (e : Event)
    (h : step ff s e = some s1) :
    s1.dequeued ++ s1.log._queue = s.dequeued ++ s.log._queue ++ pushesOf [e] := by
  cases e with
  | push lv args =>
    simp only [step, Option.some.injEq] at h
    subst h
    simp [AsyncLog.AsyncWrite, pushesOf]
  | stop =>
    simp only [step, Option.some.injEq] at h
    subst h
    simp [AsyncLog.Stop, pushesOf]
  | worker =>
    simp only [step] at h
    rcases workerStep_cases ff s s1 h with ⟨_, _, rfl⟩ | ⟨_, _, _, rfl⟩ | ⟨_, t, q, hq, rfl⟩
    · simp [pushesOf]
    · simp [pushesOf]
    · simp [pushesOf, hq]

theorem pushesOf_cons (e : Event) (evs : List Event) :
    pushesOf (e :: evs) = pushesOf [e] ++ pushesOf evs := by
  cases e <;> simp [pushesOf]

theorem run_conserves (ff : FloatFmt) (evs : List Event) :
    ∀ s s1 : Sys, run ff s evs = some s1 →
      s1.dequeued ++ s1.log._queue = s.dequeued ++ s.log._queue ++ pushesOf evs := by
  induction evs with
  | nil =>
    intro s s1 h
    simp only [run, Option.some.injEq] at h
    subst h
    simp [pushesOf]
  | cons e evs ih =>
    intro s s1 h
    simp only [run] at h
    cases hs : step ff s e with
    | none => simp [hs] at h
    | some s2 =>
      simp only [hs, Option.some_bind] at h
      rw [ih s2 s1 h, step_conserves ff s s2 e hs, pushesOf_cons e evs]
      simp

theorem step_sinkOk (ff : FloatFmt) (s s1 : Sys) (e : Event)
    (h : step ff s e = some s1) (hs : SinkOk ff s) : SinkOk ff s1 := by
  unfold SinkOk at *
  cases e with
  | push lv args =>
    simp only [step, Option.some.injEq] at h
    subst h
    exact hs
  | stop =>
    simp only [step, Option.some.injEq] at h
    subst h
    exact hs
  | worker =>
    simp only [step] at h
    rcases workerStep_cases ff s s1 h with ⟨_, _, rfl⟩ | ⟨_, _, _, rfl⟩ | ⟨_, t, q, hq, rfl⟩
    · exact hs
    · exact hs
    · simp [List.foldl_append, ← hs]

theorem run_sinkOk (ff : FloatFmt) (evs : List Event) :
    ∀ s s1 : Sys, run ff s evs = some s1 → SinkOk ff s → SinkOk ff s1 := by
  induction evs with
  | nil =>
    intro s s1 h hs
    simp only [run, Option.some.injEq] at h
    subst h
    exact hs
  | cons e evs ih =>
    intro s s1 h hs
    simp only [run] at h
    cases hst : step ff s e with
    | none => simp [hst] at h
    | some s2 =>
      simp only [hst, Option.some_bind] at h
      exact ih s2 s1 h (step_sinkOk ff s s2 e hst hs)

/-- Claim C9 (FIFO, no loss, no duplication). In every state reachable from the
constructor's state by enqueues of `AsyncWrite`, calls of `Stop` and worker
steps (none of which calls `front()` on an empty queue), the tasks dequeued so
far followed by the tasks now queued are exactly the tasks pushed so far, in
push order; so the dequeued tasks are a prefix of the pushed ones, and the sink
holds their output in that order. -/
theorem queue_fifo_no_loss_no_duplication (ff : FloatFmt) (evs : List Event) (s : Sys)
    (h : run ff init evs = some s) :
    s.dequeued ++ s.log._queue = pushesOf evs
    ∧ s.dequeued <+: pushesOf evs
    ∧ s.sink = s.dequeued.foldl (processTask ff) [] := by
  have h1 := run_conserves ff evs init s h
  have h2 : s.dequeued ++ s.log._queue = pushesOf evs := by
    simpa [init] using h1
  refine ⟨h2, ⟨s.log._queue, h2⟩, ?_⟩
  exact run_sinkOk ff evs init s h rfl

/-- An instance of claim C9: two pushes, then one worker step. -/
theorem queue_fifo_no_loss_no_duplication_witness :
    run bitsFmt init
        [.push .INFO [.constCharPtr "a".toList], .push .WARN [.constCharPtr "b".toList],
          .worker]
      = some { log := ⟨[⟨.WARN, [.constCharPtr "b".toList]⟩], false⟩
               pc := .running
               sink := "[INFOS]:a\n".toList
               dequeued := [⟨.INFO, [.constCharPtr "a".toList]⟩] }
    ∧ [(⟨.INFO, [.constCharPtr "a".toList]⟩ : LogTask)]
          ++ [⟨.WARN, [.constCharPtr "b".toList]⟩]
        = pushesOf
            [.push .INFO [.constCharPtr "a".toList],
              .push .WARN [.constCharPtr "b".toList], .worker] :=
  ⟨by decide,
    (queue_fifo_no_loss_no_duplication bitsFmt
      [.push .INFO [.constCharPtr "a".toList], .push .WARN [.constCharPtr "b".toList],
        .worker]
      { log := ⟨[⟨.WARN, [.constCharPtr "b".toList]⟩], false⟩
        pc := .running
        sink := "[INFOS]:a\n".toList
        dequeued := [⟨.INFO, [.constCharPtr "a".toList]⟩] }
      (by decide)).1⟩

/-! ## Shutdown -/

theorem step_pc_exited (ff : FloatFmt) (s s1 : Sys) (e : Event)
    (h : step ff s e = some s1) (hpc : s.pc ≠ .exited) (hpc1 : s1.pc = .exited) :
    e = .worker ∧ s.log._b_stop = true ∧ s.log._queue = [] ∧ s1.dequeued = s.dequeued := by
  cases e with
  | push lv args =>
    simp only [step, Option.some.injEq] at h
    subst h
    exact absurd hpc1 hpc
  | stop =>
    simp only [step, Option.some.injEq] at h
    subst h
    exact absurd hpc1 hpc
  | worker =>
    simp only [step] at h
    rcases workerStep_cases ff s s1 h with ⟨_, _, rfl⟩ | ⟨_, hb, hq, rfl⟩ | ⟨_, t, q, hq, rfl⟩
    · simp at hpc1
    · exact ⟨rfl, hb, hq, rfl⟩
    · simp at hpc1

/-- Once the worker has returned, nothing is dequeued any more. -/
theorem run_after_exit (ff : FloatFmt) (evs : List Event) :
    ∀ s s1 : Sys, run ff s evs = some s1 → s.pc = .exited →
      s1.pc = .exited ∧ s1.dequeued = s.dequeued ∧ s1.sink = s.sink := by
  induction evs with
  | nil =>
    intro s s1 h hpc
    simp only [run, Option.some.injEq] at h
    subst h
    exact ⟨hpc, rfl, rfl⟩
  | cons e evs ih =>
    intro s s1 h hpc
    simp only [run] at h
    cases hst : step ff s e with
    | none => simp [hst] at h
    | some s2 =>
      simp only [hst, Option.some_bind] at h
      have h2 : s2.pc = .exited ∧ s2.dequeued = s.dequeued ∧ s2.sink = s.sink := by
        cases e with
        | push lv args =>
          simp only [step, Option.some.injEq] at hst
          subst hst
          exact ⟨hpc, rfl, rfl⟩
        | stop =>
          simp only [step, Option.some.injEq] at hst
          subst hst
          exact ⟨hpc, rfl, rfl⟩
        | worker =>
          simp [step, workerStep, hpc] at hst
      obtain ⟨a, b, c⟩ := ih s2 s1 h h2.1
      exact ⟨a, b.trans h2.2.1, c.trans h2.2.2⟩

/-- From any state in which the worker is still alive: when it has returned,
everything that was dequeued or queued in that state has been dequeued. -/
theorem run_drains (ff : FloatFmt) (evs : List Event) :
    ∀ s s1 : Sys, run ff s evs = some s1 → s.pc ≠ .exited → s1.pc = .exited →
      s.dequeued ++ s.log._queue <+: s1.dequeued := by
  induction evs with
  | nil =>
    intro s s1 h hpc hpc1
    simp only [run, Option.some.injEq] at h
    subst h
    exact absurd hpc1 hpc
  | cons e evs ih =>
    intro s s1 h hpc hpc1
    simp only [run] at h
    cases hst : step ff s e with
    | none => simp [hst] at h
    | some s2 =>
      simp only [hst, Option.some_bind] at h
      by_cases h2 : s2.pc = .exited
      · obtain ⟨_, _, hq, hd⟩ := step_pc_exited ff s s2 e hst hpc h2
        obtain ⟨_, hd1, _⟩ := run_after_exit ff evs s2 s1 h h2
        rw [hq, hd1, hd]
        simp
      · have h3 := ih s2 s1 h h2 hpc1
        rw [step_conserves ff s s2 e hst] at h3
        exact (List.prefix_append _ _).trans h3

/-- From a state with the stop flag clear: when the worker has returned, the
tasks of that state and the tasks pushed before the first `Stop` have been
dequeued. -/
theorem run_drains_before_stop (ff : FloatFmt) (evs : List Event) :
    ∀ s s1 : Sys, run ff s evs = some s1 → s.log._b_stop = false → s.pc ≠ .exited →
      s1.pc = .exited →
      s.dequeued ++ s.log._queue ++ pushesBeforeStop evs <+: s1.dequeued := by
  induction evs with
  | nil =>
    intro s s1 h _ hpc hpc1
    simp only [run, Option.some.injEq] at h
    subst h
    exact absurd hpc1 hpc
  | cons e evs ih =>
    intro s s1 h hb hpc hpc1
    simp only [run] at h
    cases hst : step ff s e with
    | none => simp [hst] at h
    | some s2 =>
      simp only [hst, Option.some_bind] at h
      cases e with
      | push lv args =>
        simp only [step, Option.some.injEq] at hst
        subst hst
        have h3 := ih _ s1 h hb hpc hpc1
        simpa [AsyncLog.AsyncWrite, pushesBeforeStop] using h3
      | stop =>
        simp only [step, Option.some.injEq] at hst
        subst hst
        have h3 := run_drains ff evs _ s1 h hpc hpc1
        simpa [AsyncLog.Stop, pushesBeforeStop] using h3
      | worker =>
        simp only [step] at hst
        rcases workerStep_cases ff s s2 hst with
          ⟨_, _, rfl⟩ | ⟨_, hb2, _, rfl⟩ | ⟨_, t, q, hq, rfl⟩
        · have h3 := ih _ s1 h (by simpa using hb) (by simp) hpc1
          simpa [pushesBeforeStop] using h3
        · rw [hb] at hb2; exact absurd hb2 (by simp)
        · have h3 := ih _ s1 h (by simpa using hb) (by simp) hpc1
          simpa [pushesBeforeStop, hq] using h3

/-- Claim C10 (drain before terminate). In every state `s` reachable from the
constructor's state by pushes, calls of `Stop` and worker steps (none of which
calls `front()` on an empty queue): a worker step that makes the worker return
starts with the stop flag set and the queue empty; with the stop flag set and a
task `t` at the head of the queue, a worker step of a live worker dequeues and
processes `t` and does not return; and if the worker has returned in `s`, then
the stop flag is set, the tasks pushed before the first `Stop` are a prefix of
the dequeued tasks, which are a prefix of the pushed tasks (each processed once,
in push order), and the sink holds their output. -/
theorem drain_before_terminate (ff : FloatFmt) (evs : List Event) (s : Sys)
    (h : run ff init evs = some s) :
    (∀ s1, step ff s .worker = some s1 → s1.pc = .exited →
        s.pc ≠ .exited ∧ s.log._b_stop = true ∧ s.log._queue = [])
    ∧ (∀ t q, s.log._b_stop = true → s.log._queue = t :: q → s.pc ≠ .exited →
        step ff s .worker
          = some { log := { s.log with _queue := q }, pc := .running,
                   sink := processTask ff s.sink t, dequeued := s.dequeued ++ [t] })
    ∧ (s.pc = .exited →
        pushesBeforeStop evs <+: s.dequeued
        ∧ s.dequeued <+: pushesOf evs
        ∧ s.sink = s.dequeued.foldl (processTask ff) []) := by
  refine ⟨?_, ?_, ?_⟩
  · intro s1 hs hpc1
    have hpc : s.pc ≠ .exited := by
      intro hp
      simp [step, workerStep, hp] at hs
    obtain ⟨_, hb, hq, _⟩ := step_pc_exited ff s s1 .worker hs hpc hpc1
    exact ⟨hpc, hb, hq⟩
  · intro t q hb hq hpc
    cases hp : s.pc with
    | running => simp [step, workerStep, workerBody, hp, hq]
    | waiting => simp [step, workerStep, workerBody, hp, hq]
    | exited => exact absurd hp hpc
  · intro hpc
    have h1 := run_drains_before_stop ff evs init s h rfl (by simp [init]) hpc
    have h2 := run_conserves ff evs init s h
    refine ⟨by simpa [init] using h1, ⟨s.log._queue, by simpa [init] using h2⟩, ?_⟩
    exact run_sinkOk ff evs init s h rfl

/-- An instance of claim C10: a push, `Stop`, a second push, and worker steps
until the worker returns; both tasks have been processed. -/
theorem drain_before_terminate_witness :
    run bitsFmt init
        [.push .INFO [.constCharPtr "a".toList], .stop,
          .push .WARN [.constCharPtr "b".toList], .worker, .worker, .worker, .worker]
      = some { log := ⟨[], true⟩
               pc := .exited
               sink := "[INFOS]:a\n[WARNS]:b\n".toList
               dequeued := [⟨.INFO, [.constCharPtr "a".toList]⟩,
                            ⟨.WARN, [.constCharPtr "b".toList]⟩] }
    ∧ pushesBeforeStop
          [.push .INFO [.constCharPtr "a".toList], .stop,
            .push .WARN [.constCharPtr "b".toList], .worker, .worker, .worker, .worker]
        <+: [(⟨.INFO, [.constCharPtr "a".toList]⟩ : LogTask),
              ⟨.WARN, [.constCharPtr "b".toList]⟩] :=
  ⟨by decide,
    ((drain_before_terminate bitsFmt
      [.push .INFO [.constCharPtr "a".toList], .stop,
        .push .WARN [.constCharPtr "b".toList], .worker, .worker, .worker, .worker]
      { log := ⟨[], true⟩
        pc := .exited
        sink := "[INFOS]:a\n[WARNS]:b\n".toList
        dequeued := [⟨.INFO, [.constCharPtr "a".toList]⟩,
                     ⟨.WARN, [.constCharPtr "b".toList]⟩] }
      (by decide)).2.2 rfl).1⟩

/-! ## Value rendering -/

theorem digitChar_lt_ten (k : Nat) (hk : k < 10) :
    (Nat.digitChar k).isDigit = true
    ∧ (Nat.digitChar k).toNat - '0'.toNat = k
    ∧ (Nat.digitChar k = '0' → k = 0) := by
  interval_cases k <;> decide

theorem toDigitsCore_acc (b fuel : Nat) :
    ∀ (n : Nat) (ds : Str),
      Nat.toDigitsCore b fuel n ds = Nat.toDigitsCore b fuel n [] ++ ds := by
  induction fuel with
  | zero => intro n ds; simp [Nat.toDigitsCore]
  | succ fuel ih =>
    intro n ds
    simp only [Nat.toDigitsCore]
    by_cases h : n / b = 0
    · simp [h]
    · simp only [h, if_false]
      rw [ih (n / b) (Nat.digitChar (n % b) :: ds), ih (n / b) [Nat.digitChar (n % b)]]
      simp

theorem decimalValue_snoc (ds : Str) (c : Char) :
    decimalValue (ds ++ [c]) = 10 * decimalValue ds + (c.toNat - '0'.toNat) := by
  simp [decimalValue, List.foldl_append]

/-- The digits `toDigitsCore` produces with enough fuel: only decimal digits, at
least one, denoting `n`, and starting with `0` only for `n = 0`. -/
theorem toDigitsCore_decimal (fuel : Nat) :
    ∀ n : Nat, n < fuel →
      Nat.toDigitsCore 10 fuel n [] ≠ []
      ∧ (∀ c ∈ Nat.toDigitsCore 10 fuel n [], c.isDigit = true)
      ∧ decimalValue (Nat.toDigitsCore 10 fuel n []) = n
      ∧ ((Nat.toDigitsCore 10 fuel n []).head? = some '0' → n = 0) := by
  induction fuel with
  | zero => intro n hn; omega
  | succ fuel ih =>
    intro n hn
    have hd := digitChar_lt_ten (n % 10) (Nat.mod_lt n (by decide))
    simp only [Nat.toDigitsCore]
    by_cases h : n / 10 = 0
    · have hlt : n < 10 := by omega
      have hmod : n % 10 = n := Nat.mod_eq_of_lt hlt
      simp only [h, if_true]
      refine ⟨by simp, ?_, ?_, ?_⟩
      · intro c hc
        simp only [List.mem_singleton] at hc
        rw [hc]; exact hd.1
      · simp only [decimalValue, List.foldl_cons, List.foldl_nil]
        rw [hd.2.1]; omega
      · intro h0
        simp only [List.head?_cons, Option.some.injEq] at h0
        have := hd.2.2 h0
        omega
    · simp only [h, if_false]
      rw [toDigitsCore_acc 10 fuel (n / 10) [Nat.digitChar (n % 10)]]
      have hn2 : n / 10 < fuel := by omega
      obtain ⟨i1, i2, i3, i4⟩ := ih (n / 10) hn2
      refine ⟨by simp, ?_, ?_, ?_⟩
      · intro c hc
        simp only [List.mem_append, List.mem_singleton] at hc
        rcases hc with hc | hc
        · exact i2 c hc
        · rw [hc]; exact hd.1
      · rw [decimalValue_snoc, i3, hd.2.1]; omega
      · intro h0
        cases hl : Nat.toDigitsCore 10 fuel (n / 10) [] with
        | nil => exact absurd hl i1
        | cons a l =>
          rw [hl] at h0 i4
          simp only [List.cons_append, List.head?_cons] at h0 i4
          exact absurd (i4 h0) h

/-- Claim C11 (value rendering succeeds exactly on the supported kinds).
`convert2Str` returns `true` exactly for a payload of type `int`, `float`,
`double`, `std::string`, `char*` or `char const*`; when it returns `false` the
caller's string is unchanged; a `std::string` renders to itself and a `char*` or
`char const*` to the C string it points to; a non-negative `int` renders to its
decimal representation (decimal digits only, at least one, denoting the value,
no leading zero except for `0` itself) and a negative `int` to `-` followed by
the rendering of its absolute value. -/
theorem convert2Str_supported_kinds (ff : FloatFmt) (data : Payload) (str : Str) :
    ((convert2Str ff data str).1 = true ↔
        ((∃ v, data = .int v) ∨ (∃ b, data = .float b) ∨ (∃ b, data = .double b)
          ∨ (∃ s, data = .string s) ∨ (∃ m, data = .charPtr m)
          ∨ (∃ m, data = .constCharPtr m)))
    ∧ ((convert2Str ff data str).1 = false → (convert2Str ff data str).2 = str)
    ∧ (∀ s, data = .string s → convert2Str ff data str = (true, s))
    ∧ (∀ t, '\x00' ∉ t → data = .charPtr t ∨ data = .constCharPtr t →
        convert2Str ff data str = (true, t))
    ∧ (∀ n : Nat, data = .int n →
        ∃ ds, convert2Str ff data str = (true, ds) ∧ ds ≠ []
          ∧ (∀ c ∈ ds, c.isDigit = true) ∧ decimalValue ds = n
          ∧ (ds.head? = some '0' → ds = ['0']))
    ∧ (∀ n : Nat, data = .int (-((n : Int) + 1)) →
        convert2Str ff data str
          = (true, '-' :: (convert2Str ff (.int ((n : Int) + 1)) str).2)) := by
  refine ⟨?_, ?_, ?_, ?_, ?_, ?_⟩
  · cases data <;> simp [convert2Str]
  · cases data <;> simp [convert2Str]
  · rintro s rfl; rfl
  · intro t ht hd
    have hz : cText t = t := by
      unfold cText
      rw [List.takeWhile_eq_self_iff]
      intro x hx
      simpa using fun h : x = '\x00' => ht (h ▸ hx)
    rcases hd with rfl | rfl <;> simp [convert2Str, hz]
  · rintro n rfl
    obtain ⟨i1, i2, i3, i4⟩ := toDigitsCore_decimal (n + 1) n (Nat.lt_succ_self n)
    refine ⟨Nat.toDigits 10 n, rfl, i1, i2, i3, ?_⟩
    intro h0
    have hn : n = 0 := i4 h0
    subst hn
    rfl
  · rintro n rfl
    have e1 : (-((n : Int) + 1)) = Int.negSucc n := by
      rw [Int.negSucc_eq]
    have e2 : ((n : Int) + 1) = Int.ofNat (n + 1) := by simp
    rw [e1, e2]
    rfl

/-- Instances of claim C11: a `char const*`, the `int` 2024 and the `int` -7. -/
theorem convert2Str_supported_kinds_witness :
    convert2Str bitsFmt (.constCharPtr "hi".toList) "old".toList = (true, "hi".toList)
    ∧ convert2Str bitsFmt (.int 2024) [] = (true, "2024".toList)
    ∧ convert2Str bitsFmt (.int (-7)) [] = (true, "-7".toList)
    ∧ convert2Str bitsFmt (.other 0) "old".toList = (false, "old".toList) :=
  ⟨(convert2Str_supported_kinds bitsFmt (.constCharPtr "hi".toList) "old".toList).2.2.2.1
      "hi".toList (by decide) (Or.inr rfl),
    by decide, by decide, by decide⟩

/-! ## Submission and `Stop` -/

theorem TaskEnque_cells (args : List Payload) :
    ∀ task : LogTask,
      TaskEnque task args = { task with _logdatas := task._logdatas ++ args } := by
  induction args with
  | nil => intro task; simp [TaskEnque]
  | cons a args ih => intro task; simp [TaskEnque, ih]

theorem newTask_eq (level : LogLv) (args : List Payload) :
    newTask level args = ⟨level, args⟩ := by
  simp [newTask, TaskEnque_cells]

/-- Claim C12 (submission builds and appends one task). For every level and
argument list, `AsyncWrite(level, a1..an)` appends exactly one task at the tail
of the queue, with that level and the cells `a1..an` in argument order; the
tasks already queued, their order and the stop flag are unchanged, whatever the
stop flag is; in the system the worker's program point, the sink and the
dequeued tasks are unchanged too. `DLog`, `ILog`, `WLog` and `ELog` do this
with the levels DEBUG, INFO, WARN and ERROR. -/
theorem AsyncWrite_appends_one_task (ff : FloatFmt) (self : AsyncLog) (level : LogLv)
    (args : List Payload) (s : Sys) :
    self.AsyncWrite level args
        = { _queue := self._queue ++ [⟨level, args⟩], _b_stop := self._b_stop }
    ∧ (self.AsyncWrite level args)._queue.length = self._queue.length + 1
    ∧ step ff s (.push level args)
        = some { s with log := { _queue := s.log._queue ++ [⟨level, args⟩],
                                 _b_stop := s.log._b_stop } }
    ∧ DLog self args = { self with _queue := self._queue ++ [⟨.DEBUGS, args⟩] }
    ∧ ILog self args = { self with _queue := self._queue ++ [⟨.INFO, args⟩] }
    ∧ WLog self args = { self with _queue := self._queue ++ [⟨.WARN, args⟩] }
    ∧ ELog self args = { self with _queue := self._queue ++ [⟨.ERRORS, args⟩] } := by
  refine ⟨?_, ?_, ?_, ?_, ?_, ?_, ?_⟩ <;>
    simp [AsyncLog.AsyncWrite, newTask_eq, step, DLog, ILog, WLog, ELog]

/-- Claim C13 (`Stop` is idempotent and discards nothing). For every state of
the queue, `Stop` sets the stop flag and leaves the queued tasks unchanged, and
calling it twice gives the same state as calling it once; this also holds with
the notification of each call counted in, for the state of the worker and of the
condition variable. -/
theorem Stop_idempotent (ff : FloatFmt) (self : AsyncLog) (s : NSys) :
    self.Stop._b_stop = true
    ∧ self.Stop._queue = self._queue
    ∧ self.Stop.Stop = self.Stop
    ∧ nrun ff s [.setStop, .notify, .setStop, .notify] = nrun ff s [.setStop, .notify]
    ∧ ∃ s1, nrun ff s [.setStop, .notify] = some s1
        ∧ s1.sys.log = s.sys.log.Stop ∧ s1.sys.dequeued = s.sys.dequeued
        ∧ s1.sys.sink = s.sys.sink ∧ s1.sys.pc = s.sys.pc := by
  refine ⟨rfl, rfl, rfl, ?_, ?_⟩
  · simp [nrun, nstep, AsyncLog.Stop]
  · simp [nrun, nstep]

/-! ## The wait of the worker -/

/-- Claim C14 (the worker never dequeues from an empty queue), evaluated on an
interleaving without spurious wakeups. A caller enqueues one task and releases
the lock; the worker, not yet blocked, dequeues and processes it, finds the
queue empty and blocks in `wait`; only then does the caller's `notify_one` run.
The worker is woken with the queue empty and the stop flag clear, so the stop
check fails and its next step calls `front()` on the empty queue, which has no
defined result. -/
theorem worker_front_on_empty_after_late_notify (ff : FloatFmt) :
    nrun ff ninit
        [.enqueue .DEBUGS [.constCharPtr "a".toList], .worker, .worker, .notify]
      = some { sys := { log := ⟨[], false⟩
                        pc := .waiting
                        sink := "[DEBUG]:a\n".toList
                        dequeued := [⟨.DEBUGS, [.constCharPtr "a".toList]⟩] }
               notified := true
               pending := 0 }
    ∧ NSys.frontOnEmpty
        { sys := { log := ⟨[], false⟩
                   pc := .waiting
                   sink := "[DEBUG]:a\n".toList
                   dequeued := [⟨.DEBUGS, [.constCharPtr "a".toList]⟩] }
          notified := true
          pending := 0 } = true
    ∧ workerBody ff
        { log := ⟨[], false⟩
          pc := .waiting
          sink := "[DEBUG]:a\n".toList
          dequeued := [⟨.DEBUGS, [.constCharPtr "a".toList]⟩] } = none
    ∧ nrun ff ninit
        [.enqueue .DEBUGS [.constCharPtr "a".toList], .worker, .worker, .notify, .worker]
      = none := by
  refine ⟨rfl, rfl, rfl, rfl⟩

/-! ## Per-cell restart and the forward pass -/

theorem clean_nil : Clean [] := by
  intro X
  cases h : findFrom ['{', '}'] X <;> simp [h]

theorem findFrom_split (X : Str) :
    ∀ j : Nat, findFrom ['{', '}'] X = some j →
      ∃ X1 X2, X = X1 ++ '{' :: '}' :: X2 ∧ X1.length = j := by
  induction X with
  | nil => intro j h; simp [findFrom, List.isPrefixOf] at h
  | cons c t ih =>
    intro j h
    unfold findFrom at h
    by_cases hp : List.isPrefixOf ['{', '}'] (c :: t) = true
    · simp only [hp, if_true, Option.some.injEq] at h
      cases t with
      | nil => simp [List.isPrefixOf] at hp
      | cons d t =>
        simp only [List.isPrefixOf, Bool.and_true, Bool.and_eq_true, beq_iff_eq] at hp
        refine ⟨[], t, ?_, by simpa using h⟩
        rw [← hp.1, ← hp.2]
        rfl
    · simp only [hp] at h
      cases hf : findFrom ['{', '}'] t with
      | none => simp [hf] at h
      | some k =>
        simp only [hf, Option.map_some', Bool.false_eq_true, if_false,
          Option.some.injEq] at h
        obtain ⟨X1, X2, e, hl⟩ := ih k hf
        refine ⟨c :: X1, X2, by simp [e], ?_⟩
        simp [hl, h]

theorem findFrom_cons_ne (a : Char) (t : Str) (ha : a ≠ '{') :
    findFrom ['{', '}'] (a :: t) = (findFrom ['{', '}'] t).map (fun i => i + 1) := by
  have hne : ('{' == a) = false := by
    simpa using fun h : '{' = a => ha h.symm
  simp [findFrom, List.isPrefixOf, hne]

theorem findFrom_past_text (r Y : Str) (hr : '{' ∉ r) :
    findFrom ['{', '}'] (r ++ Y)
      = (findFrom ['{', '}'] Y).map (fun i => r.length + i) := by
  induction r with
  | nil => cases h : findFrom ['{', '}'] Y <;> simp [h]
  | cons a r ih =>
    have ha : a ≠ '{' := fun h => hr (by simp [h])
    have hr2 : '{' ∉ r := fun h => hr (by simp [h])
    rw [List.cons_append, findFrom_cons_ne a (r ++ Y) ha, ih hr2]
    cases h : findFrom ['{', '}'] Y with
    | none => simp
    | some k => simp only [Option.map_some', List.length_cons, Option.some.injEq]; omega

/-- If the first `{}` of a text starts right after `X1`, then with that `{}`
replaced by a non-empty brace-free text no `{}` starts inside `X1` or the
inserted text. -/
theorem findFrom_after_fill (X1 : Str) :
    ∀ (X2 r Y : Str),
      findFrom ['{', '}'] (X1 ++ '{' :: '}' :: X2) = some X1.length →
      r ≠ [] → BraceFree r →
      findFrom ['{', '}'] (X1 ++ r ++ Y)
        = (findFrom ['{', '}'] Y).map (fun i => (X1 ++ r).length + i) := by
  induction X1 with
  | nil =>
    intro X2 r Y _ _ hr
    simpa using findFrom_past_text r Y hr.1
  | cons a X1 ih =>
    intro X2 r Y h hne hr
    have hnp : List.isPrefixOf ['{', '}'] (a :: (X1 ++ '{' :: '}' :: X2)) = false := by
      cases hp : List.isPrefixOf ['{', '}'] (a :: (X1 ++ '{' :: '}' :: X2)) with
      | false => rfl
      | true =>
        rw [List.cons_append, findFrom] at h
        simp [hp] at h
    have hrec : findFrom ['{', '}'] (X1 ++ '{' :: '}' :: X2) = some X1.length := by
      rw [List.cons_append, findFrom] at h
      simp only [hnp, Bool.false_eq_true, if_false] at h
      cases hf : findFrom ['{', '}'] (X1 ++ '{' :: '}' :: X2) with
      | none => simp [hf] at h
      | some k =>
        simp only [hf, Option.map_some', Option.some.injEq, List.length_cons] at h
        have : k = X1.length := by omega
        rw [this]
    have hnp2 : List.isPrefixOf ['{', '}'] (a :: (X1 ++ r ++ Y)) = false := by
      cases X1 with
      | nil =>
        cases r with
        | nil => exact absurd rfl hne
        | cons c r =>
          have hc : c ≠ '}' := fun e => hr.2 (by simp [e])
          have hce : ('}' == c) = false := by
            simpa using fun e : '}' = c => hc e.symm
          simp [List.isPrefixOf, hce]
      | cons b X1 =>
        simpa [List.isPrefixOf] using hnp
    have step1 : findFrom ['{', '}'] (a :: X1 ++ r ++ Y)
        = (findFrom ['{', '}'] (X1 ++ r ++ Y)).map (fun i => i + 1) := by
      show findFrom ['{', '}'] (a :: (X1 ++ r ++ Y)) = _
      rw [findFrom]
      simp only [hnp2, Bool.false_eq_true, if_false]
    rw [step1, ih X2 r Y hrec hne hr]
    cases hY : findFrom ['{', '}'] Y with
    | none => simp
    | some k =>
      simp only [Option.map_some', Option.some.injEq, List.length_append,
        List.length_cons]
      omega

theorem find_at_prefix (A X pat : Str) :
    find (A ++ X) pat A.length = (findFrom pat X).map (fun i => A.length + i) := by
  simp [find]

/-- One call of `formatString` with a cell that renders. -/
theorem formatString_single (ff : FloatFmt) (s : Str) (c : Payload)
    (hc : renders ff c = true) :
    formatString ff s [c]
      = match findFrom ['{', '}'] s with
        | some p => replace s p 2 (rendered ff c)
        | none => s ++ ' ' :: rendered ff c := by
  have hc2 : (convert2Str ff c []).1 = true := hc
  simp only [formatString, List.foldl_cons, List.foldl_nil, replacePlaceholder, hc2,
    Bool.not_true, Bool.false_eq_true, if_false, find_zero, rendered]
  cases findFrom ['{', '}'] s <;> rfl

/-- The loop of `processTask` and the forward pass agree from every state whose
text before the search position is clean. -/
theorem processLoop_eq_forwardPass (ff : FloatFmt) (cells : List Payload) :
    ∀ (A X : Str), Clean A →
      (∀ c ∈ cells, renders ff c = true → rendered ff c ≠ [] ∧ BraceFree (rendered ff c)) →
      processLoop ff (A ++ X) cells = forwardPass ff (A ++ X) A.length cells := by
  induction cells with
  | nil => intro A X _ _; rfl
  | cons c cells ih =>
    intro A X hA hcs
    have hcs2 : ∀ d ∈ cells, renders ff d = true →
        rendered ff d ≠ [] ∧ BraceFree (rendered ff d) :=
      fun d hd => hcs d (by simp [hd])
    cases hc : renders ff c with
    | false =>
      simp only [processLoop, forwardPass, hc, formatString_skip ff (A ++ X) c hc,
        Bool.false_eq_true, if_false]
      exact ih A X hA hcs2
    | true =>
      obtain ⟨hne, hbf⟩ := hcs c (by simp) hc
      simp only [processLoop, forwardPass, hc, if_true, formatString_single ff (A ++ X) c hc,
        find_at_prefix, hA X]
      cases hf : findFrom ['{', '}'] X with
      | none =>
        simp only [Option.map_none']
        have e : A ++ X ++ ' ' :: rendered ff c = A ++ (X ++ ' ' :: rendered ff c) := by
          simp
        rw [e]
        exact ih A (X ++ ' ' :: rendered ff c) hA hcs2
      | some j =>
        obtain ⟨X1, X2, e, hl⟩ := findFrom_split X j hf
        subst e
        subst hl
        simp only [Option.map_some']
        have e1 : A ++ (X1 ++ '{' :: '}' :: X2) = (A ++ X1) ++ '{' :: '}' :: X2 := by
          simp
        have e2 : A.length + X1.length = (A ++ X1).length := by simp
        rw [e1, e2, replace_slot]
        have hclean : Clean (A ++ X1 ++ rendered ff c) := by
          intro Y
          have h1 := hA (X1 ++ rendered ff c ++ Y)
          have h2 := findFrom_after_fill X1 X2 (rendered ff c) Y hf hne hbf
          have e3 : A ++ X1 ++ rendered ff c ++ Y = A ++ (X1 ++ rendered ff c ++ Y) := by
            simp
          rw [e3, h1, h2]
          cases findFrom ['{', '}'] Y with
          | none => simp
          | some k =>
            simp only [Option.map_some', Option.some.injEq, List.length_append]
            omega
        have e4 : (A ++ X1).length + (rendered ff c).length
            = (A ++ X1 ++ rendered ff c).length := by
          simp only [List.length_append]
        rw [e4]
        exact ih (A ++ X1 ++ rendered ff c) X2 hclean hcs2

theorem forwardPass_eq_formatString_aux (ff : FloatFmt) (cells : List Payload) :
    ∀ (s : Str) (pos : Nat),
      forwardPass ff s pos cells
        = (cells.foldl (fun st a => replacePlaceholder ff ['{', '}'] a st) (s, pos)).1 := by
  induction cells with
  | nil => intro s pos; rfl
  | cons c cells ih =>
    intro s pos
    cases hc : renders ff c with
    | false =>
      have hc2 : (convert2Str ff c []).1 = false := hc
      simp only [forwardPass, hc, Bool.false_eq_true, if_false, List.foldl_cons,
        replacePlaceholder, hc2, Bool.not_false, if_true]
      exact ih s pos
    | true =>
      have hc2 : (convert2Str ff c []).1 = true := hc
      simp only [forwardPass, hc, if_true, List.foldl_cons, replacePlaceholder, hc2,
        Bool.not_true, Bool.false_eq_true, if_false]
      cases find s ['{', '}'] pos with
      | none => exact ih _ _
      | some p => exact ih _ _

/-- Claim C15 (per-cell restart agrees with a single forward pass on brace-free
arguments). For every template and every list of cells in which each cell that
renders has a non-empty text without `{` and `}` (cells that do not render are
allowed and skipped), the loop of `processTask`, which calls `formatString` once
per cell with the search starting at 0, gives the same text as one forward pass
that resumes the search just after the text inserted last; that pass is also
what a single call of `formatString` with all the cells computes. -/
theorem per_cell_restart_eq_forward_pass (ff : FloatFmt) (template : Str)
    (cells : List Payload)
    (hcells : ∀ c ∈ cells, renders ff c = true →
      rendered ff c ≠ [] ∧ BraceFree (rendered ff c)) :
    processLoop ff template cells = forwardPass ff template 0 cells
    ∧ forwardPass ff template 0 cells = formatString ff template cells := by
  refine ⟨?_, forwardPass_eq_formatString_aux ff cells template 0⟩
  exact processLoop_eq_forwardPass ff cells [] template clean_nil hcells

/-- An instance of claim C15: the template `{{}} a}{ {} b`, with stray braces,
an unsupported cell and more cells than placeholders; the result is
`{1} a}{ x b 3`. -/
theorem per_cell_restart_eq_forward_pass_witness :
    processLoop bitsFmt "\x7b\x7b\x7d\x7d a\x7d\x7b \x7b\x7d b".toList
        [.int 1, .other 0, .constCharPtr "x".toList, .int 3]
      = "\x7b1\x7d a\x7d\x7b x b 3".toList
    ∧ forwardPass bitsFmt "\x7b\x7b\x7d\x7d a\x7d\x7b \x7b\x7d b".toList 0
        [.int 1, .other 0, .constCharPtr "x".toList, .int 3]
      = "\x7b1\x7d a\x7d\x7b x b 3".toList :=
  ⟨((per_cell_restart_eq_forward_pass bitsFmt "\x7b\x7b\x7d\x7d a\x7d\x7b \x7b\x7d b".toList
      [.int 1, .other 0, .constCharPtr "x".toList, .int 3] (by decide)).1).trans
      (by decide),
    by decide⟩

end AsyncLog
